import Mathlib

/-!
Shallow embedding of the be-spelling repository's algorithmic core:
the simplified SM-2 spaced-repetition scheduler (`src/lib/srs/scheduler.ts`),
the storage repositories (`src/lib/storage/repositories.ts`), the
auto-rating typo-tolerance heuristic (`src/app/page.tsx`), the manage-page
statistics (`src/app/manage/page.tsx`), and the word-generation API route
(`src/unnamed/part_000`, the generate-words route handler).

JavaScript numbers are modelled as `ℚ` (the arithmetic involved is exact
decimal arithmetic: 2.5, 1.3, 0.1, 0.08, 0.02, `Math.round`, `Math.max`;
Lean's `round` on `ℚ` is `⌊x + 1/2⌋`, which agrees with `Math.round`),
JavaScript strings as Lean `String` or `List Char`, and the IndexedDB
tables as Lean lists of records.
-/

namespace BeSpelling

/-- `Rating` from `src/lib/types.ts`: `'NAILED' | 'ALMOST' | 'STUMPED'`. -/
inductive Rating where
  | NAILED
  | ALMOST
  | STUMPED
deriving DecidableEq, Repr

/-- The `SRS` record from `src/lib/types.ts`: `wordId`, `ease`, `interval`
(days), `due` (ISO date string), `reps` (repetition count; the TS field is
optional with every reader defaulting it to 0 via `reps = 0` / `?? 0`
destructuring, so it is modelled as a total `ℕ` field). -/
structure SRSRec where
  wordId : String
  ease : ℚ
  interval : ℚ
  due : String
  reps : ℕ
deriving DecidableEq, Repr

/-- `ratingToQuality` from `src/lib/srs/scheduler.ts`:
NAILED ↦ 5, ALMOST ↦ 3, STUMPED ↦ 1 (a JS number, hence `ℚ`). -/
def ratingToQuality : Rating → ℚ
  | .NAILED => 5
  | .ALMOST => 3
  | .STUMPED => 1

/-- `initializeSRS` from `src/lib/storage/repositories.ts` (lines 108–119):
ease 2.5, interval 0, due now, reps 0.  `nowIso` stands for
`new Date().toISOString()`. -/
def initializeSRS (wordId : String) (nowIso : String) : SRSRec :=
  { wordId := wordId, ease := 2.5, interval := 0, due := nowIso, reps := 0 }

/-- The pure core of `updateSRS` from `src/lib/srs/scheduler.ts`
(lines 41–78): given the prior record and the rating, produce the record
that is written back.  `calcDue` abstracts `calculateDueDate` (current date
plus `interval` days, rendered by `toISOString`), which the scheduler
applies to the new interval. -/
def updateSRS (calcDue : ℚ → String) (srs : SRSRec) (rating : Rating) : SRSRec :=
  let q := ratingToQuality rating
  let ir : ℚ × ℕ :=
    if q < 3 then
      (1, 0)
    else
      if srs.reps + 1 = 1 then (1, srs.reps + 1)
      else if srs.reps + 1 = 2 then (6, srs.reps + 1)
      else (((round (srs.interval * srs.ease) : ℤ) : ℚ), srs.reps + 1)
  let ease : ℚ := max 1.3 (srs.ease + (0.1 - (5 - q) * (0.08 + (5 - q) * 0.02)))
  { wordId := srs.wordId
    ease := ease
    interval := ir.1
    due := calcDue ir.1
    reps := ir.2 }

/-- The record used to refute claim C2 as literally stated: its interval is
nonnegative but its ease is negative (the claim's hypothesis constrains only
the interval of the prior record). -/
def badEaseRec : SRSRec :=
  { wordId := "w", ease := -1, interval := 2, due := "", reps := 2 }

/-- The `Word` record from `src/lib/types.ts`: `id`, `text`, `hint`,
optional `sourcePromptHash`. -/
structure Word where
  id : String
  text : String
  hint : String
  sourcePromptHash : Option String
deriving DecidableEq, Repr

/-- The `Review` record from `src/lib/types.ts`: `wordId`, `ts`
(`Date.now()` milliseconds), `rating`. -/
structure Review where
  wordId : String
  ts : ℤ
  rating : Rating
deriving DecidableEq, Repr

/-- The three IndexedDB tables of `src/lib/storage/database.ts`
(`words` keyed by `id`, `reviews`, `srs` keyed by `wordId`),
each modelled as a list of records. -/
structure Store where
  words : List Word
  reviews : List Review
  srs : List SRSRec
deriving DecidableEq, Repr

/-- `deleteWord` from `src/lib/storage/repositories.ts` (lines 31–37): one
transaction issuing three separate deletes — the word with primary key `id`,
every review whose `wordId` equals `id`, and the SRS record with primary
key `id`. -/
def deleteWord (st : Store) (id : String) : Store :=
  { words := st.words.filter (fun w => ¬ w.id = id)
    reviews := st.reviews.filter (fun r => ¬ r.wordId = id)
    srs := st.srs.filter (fun s => ¬ s.wordId = id) }

/-- The snapshot shape of `exportData` / `importData` from
`src/lib/storage/repositories.ts`: `{ words, reviews, srs }`. -/
structure Snapshot where
  words : List Word
  reviews : List Review
  srs : List SRSRec
deriving DecidableEq, Repr

/-- `exportData` from `src/lib/storage/repositories.ts` (lines 39–47):
reads the three tables into a snapshot. -/
def exportData (st : Store) : Snapshot :=
  { words := st.words, reviews := st.reviews, srs := st.srs }

/-- `importData` from `src/lib/storage/repositories.ts` (lines 49–59):
one transaction that clears all three tables and then `bulkAdd`s the
snapshot's records into the (now empty) tables. -/
def importData (d : Snapshot) (st : Store) : Store :=
  let cleared : Store := { words := [], reviews := [], srs := [] }
  { words := cleared.words ++ d.words
    reviews := cleared.reviews ++ d.reviews
    srs := cleared.srs ++ d.srs }

/-- Lexicographic (code-unit) order on character lists, the order an
IndexedDB string index uses for its keys. -/
def strLeB : List Char → List Char → Bool
  | [], _ => true
  | _ :: _, [] => false
  | x :: xs, y :: ys => if x = y then strLeB xs ys else decide (x < y)

/-- The IndexedDB string-key comparison used by the `due` index:
lexicographic order on the strings' characters. -/
def dueLe (a b : String) : Bool := strLeB a.data b.data

/-- `getDueWords` from `src/lib/storage/repositories.ts` (lines 99–102):
`db.srs.where('due').belowOrEqual(now)` — all SRS records whose stored `due`
string is at most `now` in the index's lexicographic string order
(`now` is `new Date().toISOString()`). -/
def getDueWords (store : List SRSRec) (now : String) : List SRSRec :=
  store.filter (fun r => dueLe r.due now)

/-- `Array.from(new Set(...))` over strings: deduplication keeping the first
occurrence, in insertion order.  `seen` holds already-emitted elements. -/
def jsDedupAux (seen : List String) : List String → List String
  | [] => []
  | x :: xs => if x ∈ seen then jsDedupAux seen xs else x :: jsDedupAux (x :: seen) xs

/-- `Array.from(new Set(l))`. -/
def jsDedup (l : List String) : List String := jsDedupAux [] l

/-- The comparator of `dueWords.sort((a, b) => new Date(a.due).getTime() -
new Date(b.due).getTime())`: sort ascending by the parsed due timestamp.
`parse` abstracts `new Date(s).getTime()`. -/
def dueOrder (parse : String → ℤ) (a b : SRSRec) : Prop :=
  parse a.due ≤ parse b.due

instance (parse : String → ℤ) : DecidableRel (dueOrder parse) :=
  fun a b => inferInstanceAs (Decidable (parse a.due ≤ parse b.due))

instance (parse : String → ℤ) : IsTotal SRSRec (dueOrder parse) :=
  ⟨fun a b => le_total (parse a.due) (parse b.due)⟩

instance (parse : String → ℤ) : IsTrans SRSRec (dueOrder parse) :=
  ⟨fun _ _ _ hab hbc => le_trans hab hbc⟩

/-- The local `dueWords` after the in-place
`dueWords.sort((a, b) => new Date(a.due).getTime() - new Date(b.due).getTime())`
in `getNextWord`: the due records sorted ascending by parsed due timestamp.
`parse` abstracts `new Date(s).getTime()`. -/
def sortedDue (parse : String → ℤ) (store : List SRSRec) (now : String) :
    List SRSRec :=
  List.insertionSort (dueOrder parse) (getDueWords store now)

/-- The local `earlyPool` of `getNextWord`:
`dueWords.filter(w => (w.interval === 0 && (w.reps ?? 0) === 0) || (w.reps ?? 0) < 2)`. -/
def earlyPool (parse : String → ℤ) (store : List SRSRec) (now : String) :
    List SRSRec :=
  (sortedDue parse store now).filter
    (fun w => decide ((w.interval = 0 ∧ w.reps = 0) ∨ w.reps < 2))

/-- The local `earliestIds` / `sample` of `getNextWord`:
`new Set(dueWords.filter(w => earlyPool.includes(w)).slice(0, Math.min(5,
earlyPool.length)).map(w => w.wordId))`, converted back to an array. -/
def earliestIds (parse : String → ℤ) (store : List SRSRec) (now : String) :
    List String :=
  jsDedup
    ((((sortedDue parse store now).filter
        (fun w => decide (w ∈ earlyPool parse store now))).take
      (min 5 (earlyPool parse store now).length)).map SRSRec.wordId)

/-- `getNextWord` from `src/lib/srs/scheduler.ts` (lines 210–240): null when
nothing is due; otherwise sort the due records by due timestamp, and if more
than one record is still in the early-learning stage, pick randomly among
the word ids of the earliest `min 5` such records; otherwise take the
earliest due record.  `k` models the outcome of `Math.random()`: the source
picks index `Math.floor(Math.random() * sample.length)`, modelled as
`k % sample.length` so that every `k` denotes a possible draw. -/
def getNextWord (parse : String → ℤ) (k : ℕ) (store : List SRSRec) (now : String) :
    Option String :=
  if (getDueWords store now).length = 0 then none
  else if 1 < (earlyPool parse store now).length then
    some ((earliestIds parse store now).getD
      (k % (earliestIds parse store now).length) "")
  else
    some (((sortedDue parse store now).headD ⟨"", 0, 0, "", 0⟩).wordId)

/-- The statistics object of `getStudyStats` in `src/lib/srs/scheduler.ts`
(lines 99–117 of the first revision, 245–263 of the second):
`{ total, due, learned }`. -/
structure StudyStats where
  total : ℕ
  due : ℕ
  learned : ℕ
deriving DecidableEq, Repr

/-- `getStudyStats`: `total` is the number of SRS records, `due` the number
of due records, and `learned` the number of records with
`interval >= 21`. -/
def getStudyStats (store : List SRSRec) (now : String) : StudyStats :=
  { total := store.length
    due := (getDueWords store now).length
    learned := (store.filter (fun s => decide (21 ≤ s.interval))).length }

/-- The manage page's per-word interval (`src/app/manage/page.tsx`, line 43):
`interval: srs?.interval || 0` where
`srs = refreshedSRS.find(s => s.wordId === word.id)`. -/
def wordIntervalOf (srsList : List SRSRec) (wid : String) : ℚ :=
  match srsList.find? (fun s => decide (s.wordId = wid)) with
  | some s => s.interval
  | none => 0

/-- The manage page's `refreshedSRS` (`src/app/manage/page.tsx`, lines
27–32): the stored SRS records plus a freshly initialized record for every
word that has none. -/
def refreshedSRS (now : String) (words : List Word) (srsList : List SRSRec) :
    List SRSRec :=
  srsList ++
    (words.filter
      (fun w => ! srsList.any (fun s => decide (s.wordId = w.id)))).map
      (fun w => initializeSRS w.id now)

/-- The manage page's learned statistic (`src/app/manage/page.tsx`, line 62):
`wordsWithStats.filter(w => w.interval >= 21).length` (the display sort that
precedes it does not change the count). -/
def manageLearned (now : String) (words : List Word) (srsList : List SRSRec) : ℕ :=
  (words.filter
    (fun w => decide (21 ≤ wordIntervalOf (refreshedSRS now words srsList) w.id))).length

/-- The whitespace characters relevant to `String.prototype.trim` for the
inputs at hand (ASCII whitespace). -/
def jsWhitespace (c : Char) : Bool :=
  decide (c = ' ' ∨ c = '\t' ∨ c = '\n' ∨ c = '\r')

/-- `s.trim()` on the character list of a JS string: strip leading and
trailing whitespace. -/
def jsTrim (l : List Char) : List Char :=
  ((l.dropWhile jsWhitespace).reverse.dropWhile jsWhitespace).reverse

/-- `s.toLowerCase()` on the character list of a JS string. -/
def jsLower (l : List Char) : List Char := l.map Char.toLower

/-- The adjacent-transposition scan of `isSlightlyWrong`
(`src/app/page.tsx`, lines 135–144): walk to the first mismatch `i` (with
`i < a.length - 1`) and accept exactly when `a[i] = b[i+1]`,
`a[i+1] = b[i]`, and the tails after `i+2` agree. -/
def firstMismatchSwap : List Char → List Char → Bool
  | x :: y :: xs, u :: v :: us =>
    if x = u then firstMismatchSwap (y :: xs) (v :: us)
    else decide (x = v ∧ y = u ∧ xs = us)
  | _, _ => false

/-- The single-pass bounded edit counter of `isSlightlyWrong`
(`src/app/page.tsx`, lines 146–166).  `cmp` is the comparison of the
original lengths (`compare a.length b.length`), which decides whether a
mismatch consumes from both sides (substitution), from `a` (deletion), or
from `b` (insertion); the count aborts as soon as a second edit appears,
and a leftover suffix on either side counts as one more edit. -/
def editLoop (cmp : Ordering) : List Char → List Char → ℕ → Bool
  | x :: xs, y :: ys, edits =>
    if x = y then editLoop cmp xs ys edits
    else if 1 < edits + 1 then false
    else
      match cmp with
      | .eq => editLoop cmp xs ys (edits + 1)
      | .gt => editLoop cmp xs (y :: ys) (edits + 1)
      | .lt => editLoop cmp (x :: xs) ys (edits + 1)
  | [], [], edits => decide (edits = 1)
  | [], _ :: _, edits => decide (edits + 1 = 1)
  | _ :: _, [], edits => decide (edits + 1 = 1)
termination_by a b _ => a.length + b.length

/-- `isSlightlyWrong` from `src/app/page.tsx` (lines 129–167): false on an
empty side or a length gap above 1; otherwise true when the equal-length
adjacent-transposition scan fires, or when the greedy one-pass edit counter
finds exactly one edit. -/
def isSlightlyWrong (a b : List Char) : Bool :=
  if a = [] ∨ b = [] then false
  else if 1 < Nat.dist a.length b.length then false
  else
    (decide (a.length = b.length) && decide (a ≠ b) && firstMismatchSwap a b)
      || editLoop (compare a.length b.length) a b 0

/-- Modelled from the spec: the textbook Levenshtein edit distance (unit
costs for insertion, deletion, substitution), the predicate the claim
states `isSlightlyWrong` decides at distance exactly 1. -/
def levenshtein : List Char → List Char → ℕ
  | [], ys => ys.length
  | _ :: xs, [] => xs.length + 1
  | x :: xs, y :: ys =>
    if x = y then levenshtein xs ys
    else 1 + min (levenshtein xs ys)
      (min (levenshtein (x :: xs) ys) (levenshtein xs (y :: ys)))
termination_by a b => a.length + b.length

/-- Modelled from the spec: `a` is obtained from `b` by transposing one
adjacent pair of (distinct) characters. -/
def Transposed (a b : List Char) : Prop :=
  ∃ p x y s, x ≠ y ∧ b = p ++ x :: y :: s ∧ a = p ++ y :: x :: s

/-- The three possible outcomes of the Check button handler: auto-rate
NAILED (skip the manual rating bar), auto-rate ALMOST (skip the manual
rating bar), or reveal the answer and present the manual rating buttons. -/
inductive CheckOutcome where
  | autoNailed
  | autoAlmost
  | manual
deriving DecidableEq, Repr

/-- `handleCheck` from `src/app/page.tsx` (lines 98–125): normalize the
attempt and the target with `trim().toLowerCase()`; on equality auto-rate
NAILED, otherwise if `isSlightlyWrong` fires auto-rate ALMOST, otherwise
proceed to the answer phase where the manual rating buttons show. -/
def handleCheck (input target : List Char) : CheckOutcome :=
  let attempt := jsLower (jsTrim input)
  let tgt := jsLower (jsTrim target)
  if attempt = tgt then .autoNailed
  else if isSlightlyWrong attempt tgt then .autoAlmost
  else .manual

/-- `s.trim()` on a JS string. -/
def jsTrimStr (s : String) : String := (jsTrim s.data).asString

/-- `s.trim().toLowerCase()` on a JS string. -/
def jsNormStr (s : String) : String := (jsLower (jsTrim s.data)).asString

/-- One candidate word object from the parsed AI response: `{ text, hint }`
(entries whose fields are not strings are dropped by the route's `typeof`
filter and are not modelled). -/
structure RawWord where
  text : String
  hint : String
deriving DecidableEq, Repr

/-- The request body of POST `/api/generate-words`: `promptTemplate`
(absent modelled as `""`, which is what the `!promptTemplate` check
rejects), the client-supplied `existingWords` list, and the optional
`existingWordCount` total (`seed` only perturbs the model temperature). -/
structure GenBody where
  promptTemplate : String
  existingWords : List String
  existingWordCount : Option ℤ
deriving DecidableEq, Repr

/-- The route's possible responses: 429 RATE_LIMIT, 400 missing prompt,
500 missing API key, 500 AI/parse/validation failure, 429 WORD_LIMIT, or
200 with the generated word list. -/
inductive GenResponse where
  | rateLimited
  | badRequest
  | noApiKey
  | aiFailure
  | wordLimit (limit : ℤ)
  | success (words : List (String × String))
deriving DecidableEq, Repr

/-- The route's `normalizedExisting` (lines 44–51): keep strings, trim and
lowercase, drop empties and overlong entries, deduplicate preserving first
occurrence (`Array.from(new Set(...))`). -/
def normalizeExisting (existingWords : List String) : List String :=
  jsDedup
    ((existingWords.map jsNormStr).filter
      (fun w => decide (0 < w.length ∧ w.length ≤ 30)))

/-- The route's `existingTotal` (lines 57–59): the client-reported count
when it is a number ≥ 0, else the length of the normalized list. -/
def existingTotal (body : GenBody) : ℤ :=
  match body.existingWordCount with
  | some n => if 0 ≤ n then n else ((normalizeExisting body.existingWords).length : ℤ)
  | none => ((normalizeExisting body.existingWords).length : ℤ)

/-- The route's validation/de-duplication pass over the AI words (lines
150–169): walking the candidate list, dropping texts already in the
normalized existing set or already generated in this batch (`seen`). -/
def filterNovel (existingSet : List String) :
    List RawWord → List String → List RawWord
  | [], _ => []
  | w :: ws, seen =>
    if w.text ∈ existingSet ∨ w.text ∈ seen then filterNovel existingSet ws seen
    else w :: filterNovel existingSet ws (w.text :: seen)

/-- The route's `validWords` (lines 152–169): keep candidates with
non-empty trimmed text and hint, normalize text to trimmed lowercase and
trim the hint, then drop existing and batch-duplicate texts. -/
def validWords (existingSet : List String) (ws : List RawWord) : List RawWord :=
  filterNovel existingSet
    ((ws.filter (fun w =>
        decide (0 < (jsTrimStr w.text).length ∧ 0 < (jsTrimStr w.hint).length))).map
      (fun w => ⟨jsNormStr w.text, jsTrimStr w.hint⟩)) []

/-- The POST handler of `/api/generate-words` (`src/unnamed/part_000`):
rate-limit check, prompt and API-key validation, the `MAX_TOTAL_WORDS = 100`
ceiling (WORD_LIMIT when `existingTotal ≥ 100`), and on an AI result the
validation/de-duplication pass, failing when nothing novel remains, else
answering with the valid words cut to `remainingSlots = 100 − existingTotal`
(the prompt asks the model for `min 10 remainingSlots` words, but the
response is only clipped to `remainingSlots`).  `rateLimitHit` models the
in-memory rate-limiter state, `aiResult` the parsed `wordsData.words`
(`none` for fetch/parse/shape failures), and `sanitizeHint` the
hint-leak scrubbing applied to each returned hint. -/
def generatePOST (rateLimitHit apiKeyConfigured : Bool) (body : GenBody)
    (aiResult : Option (List RawWord))
    (sanitizeHint : String → String → String) : GenResponse :=
  if rateLimitHit then .rateLimited
  else if body.promptTemplate = "" then .badRequest
  else if !apiKeyConfigured then .noApiKey
  else if 100 ≤ existingTotal body then .wordLimit 100
  else
    let remainingSlots := 100 - existingTotal body
    match aiResult with
    | none => .aiFailure
    | some ws =>
      let valid := validWords (normalizeExisting body.existingWords) ws
      if valid = [] then .aiFailure
      else
        let limited := valid.take remainingSlots.toNat
        .success (limited.map (fun w => (w.text, sanitizeHint w.text w.hint)))

/-- The eleven distinct candidate words used to refute C8's
`min 10 …` bound. -/
def elevenWords : List RawWord :=
  [⟨"apple", "h"⟩, ⟨"banana", "h"⟩, ⟨"cherry", "h"⟩, ⟨"damson", "h"⟩,
    ⟨"elder", "h"⟩, ⟨"fig", "h"⟩, ⟨"grape", "h"⟩, ⟨"honey", "h"⟩,
    ⟨"ivy", "h"⟩, ⟨"jujube", "h"⟩, ⟨"kiwi", "h"⟩]

theorem updateSRS_interval (calcDue : ℚ → String) (srs : SRSRec) (r : Rating) :
    (updateSRS calcDue srs r).interval =
      if ratingToQuality r < 3 then 1
      else if srs.reps + 1 = 1 then 1
      else if srs.reps + 1 = 2 then 6
      else ((round (srs.interval * srs.ease) : ℤ) : ℚ) := by
  simp only [updateSRS]
  repeat' split
  all_goals rfl

theorem updateSRS_ease (calcDue : ℚ → String) (srs : SRSRec) (r : Rating) :
    (updateSRS calcDue srs r).ease =
      max 1.3 (srs.ease + (0.1 - (5 - ratingToQuality r) *
        (0.08 + (5 - ratingToQuality r) * 0.02))) := rfl

theorem round_rat_nonneg (x : ℚ) (hx : 0 ≤ x) : (0 : ℤ) ≤ round x := by
  rw [round_eq]
  exact Int.floor_nonneg.mpr (by linarith)

/-- C2 counterexample: the claim quantifies over every prior record with
`interval ≥ 0` (only), but the record with `ease = -1`, `interval = 2`,
`reps = 2`, rated NAILED, is written back with
`interval = round (2 * (-1)) = -2 < 0`. -/
theorem updateSRS_interval_can_go_negative :
    0 ≤ badEaseRec.interval ∧
      ¬ 0 ≤ (updateSRS (fun _ => "") badEaseRec Rating.NAILED).interval := by
  refine ⟨by norm_num [badEaseRec], ?_⟩
  rw [updateSRS_interval]
  norm_num [badEaseRec, ratingToQuality]
  have h : round ((-2 : ℚ)) = (-2 : ℤ) := by
    rw [show ((-2 : ℚ)) = ((-2 : ℤ) : ℚ) by norm_num]
    exact round_intCast _
  rw [h]
  norm_num

/-- C2 (amended): `initializeSRS` writes ease 2.5 and interval 0, and
`updateSRS` preserves the invariant `ease ≥ 1.3 ∧ interval ≥ 0`: for every
prior record satisfying the invariant and every rating, the written record
satisfies it again. -/
theorem srs_invariant_preserved (wid nowIso : String) (calcDue : ℚ → String)
    (srs : SRSRec) (r : Rating)
    (hease : 1.3 ≤ srs.ease) (hival : 0 ≤ srs.interval) :
    (initializeSRS wid nowIso).ease = 2.5 ∧ (initializeSRS wid nowIso).interval = 0 ∧
      1.3 ≤ (updateSRS calcDue srs r).ease ∧ 0 ≤ (updateSRS calcDue srs r).interval := by
  refine ⟨rfl, rfl, ?_, ?_⟩
  · rw [updateSRS_ease]
    exact le_max_left _ _
  · rw [updateSRS_interval]
    have hprod : (0 : ℤ) ≤ round (srs.interval * srs.ease) :=
      round_rat_nonneg _ (mul_nonneg hival (by linarith))
    repeat' split
    all_goals norm_num
    exact hprod

/-- Witness for `srs_invariant_preserved` at a concrete record. -/
theorem srs_invariant_preserved_witness :
    (1.3 : ℚ) ≤ 2.5 ∧ (0 : ℚ) ≤ 0 ∧
      ((initializeSRS "w" "t").ease = 2.5 ∧ (initializeSRS "w" "t").interval = 0 ∧
        1.3 ≤ (updateSRS (fun _ => "t2") ⟨"w", 2.5, 0, "t", 0⟩ Rating.NAILED).ease ∧
        0 ≤ (updateSRS (fun _ => "t2") ⟨"w", 2.5, 0, "t", 0⟩ Rating.NAILED).interval) :=
  ⟨by norm_num, le_refl 0,
    srs_invariant_preserved "w" "t" (fun _ => "t2") ⟨"w", 2.5, 0, "t", 0⟩ Rating.NAILED
      (by norm_num) (le_refl 0)⟩

/-- C10: for a record with integer interval ≥ 0, ease ≥ 1.3 and reps ≥ 2,
a NAILED or ALMOST review writes interval `round (interval * ease)`,
which is at least the old interval. -/
theorem updateSRS_interval_monotone (calcDue : ℚ → String) (srs : SRSRec) (r : Rating)
    (n : ℤ) (hn : 0 ≤ n) (hival : srs.interval = (n : ℚ))
    (hease : 1.3 ≤ srs.ease) (hreps : 2 ≤ srs.reps)
    (hr : r = Rating.NAILED ∨ r = Rating.ALMOST) :
    (updateSRS calcDue srs r).interval = ((round (srs.interval * srs.ease) : ℤ) : ℚ) ∧
      srs.interval ≤ (updateSRS calcDue srs r).interval := by
  have hq : ¬ ratingToQuality r < 3 := by
    rcases hr with h | h <;> subst h <;> norm_num [ratingToQuality]
  have h1 : ¬ srs.reps + 1 = 1 := by omega
  have h2 : ¬ srs.reps + 1 = 2 := by omega
  have hval : (updateSRS calcDue srs r).interval =
      ((round (srs.interval * srs.ease) : ℤ) : ℚ) := by
    rw [updateSRS_interval, if_neg hq, if_neg h1, if_neg h2]
  refine ⟨hval, ?_⟩
  rw [hval, hival]
  have hn' : (0 : ℚ) ≤ (n : ℚ) := by exact_mod_cast hn
  have hbound : (n : ℚ) ≤ n * srs.ease := by nlinarith
  have : n ≤ round ((n : ℚ) * srs.ease) := by
    rw [round_eq]
    exact Int.le_floor.mpr (by linarith)
  exact_mod_cast this

/-- Witness for `updateSRS_interval_monotone` at a concrete record. -/
theorem updateSRS_interval_monotone_witness :
    ((0 : ℤ) ≤ 10 ∧ (⟨"w", 2.5, 10, "t", 3⟩ : SRSRec).interval = ((10 : ℤ) : ℚ) ∧
        (1.3 : ℚ) ≤ 2.5 ∧ 2 ≤ 3) ∧
      ((updateSRS (fun _ => "t2") ⟨"w", 2.5, 10, "t", 3⟩ Rating.NAILED).interval =
          ((round ((⟨"w", 2.5, 10, "t", 3⟩ : SRSRec).interval *
            (⟨"w", 2.5, 10, "t", 3⟩ : SRSRec).ease) : ℤ) : ℚ) ∧
        (⟨"w", 2.5, 10, "t", 3⟩ : SRSRec).interval ≤
          (updateSRS (fun _ => "t2") ⟨"w", 2.5, 10, "t", 3⟩ Rating.NAILED).interval) :=
  ⟨⟨by norm_num, by norm_num, by norm_num, by norm_num⟩,
    updateSRS_interval_monotone (fun _ => "t2") ⟨"w", 2.5, 10, "t", 3⟩ Rating.NAILED
      10 (by norm_num) (by norm_num) (by norm_num) (by norm_num) (Or.inl rfl)⟩

/-- C7: after `deleteWord id`, the word with that id, every review with that
`wordId`, and the SRS record keyed by that id are absent, while every word,
review, and SRS record with any other id is present exactly as before. -/
theorem deleteWord_spec (st : Store) (id : String) :
    (∀ w ∈ (deleteWord st id).words, w.id ≠ id) ∧
      (∀ r ∈ (deleteWord st id).reviews, r.wordId ≠ id) ∧
      (∀ s ∈ (deleteWord st id).srs, s.wordId ≠ id) ∧
      (∀ w : Word, w.id ≠ id → (w ∈ (deleteWord st id).words ↔ w ∈ st.words)) ∧
      (∀ r : Review, r.wordId ≠ id → (r ∈ (deleteWord st id).reviews ↔ r ∈ st.reviews)) ∧
      (∀ s : SRSRec, s.wordId ≠ id → (s ∈ (deleteWord st id).srs ↔ s ∈ st.srs)) := by
  refine ⟨?_, ?_, ?_, ?_, ?_, ?_⟩ <;>
    simp only [deleteWord, List.mem_filter, decide_not] <;> intro x hx
  · exact fun h => by simpa [h] using hx.2
  · exact fun h => by simpa [h] using hx.2
  · exact fun h => by simpa [h] using hx.2
  · simp [hx]
  · simp [hx]
  · simp [hx]

/-- Witness for `deleteWord_spec`: a one-word store, deleting a different id
leaves the word present. -/
theorem deleteWord_spec_witness :
    (⟨"a", "cat", "h", none⟩ : Word).id ≠ "b" ∧
      ((⟨"a", "cat", "h", none⟩ : Word) ∈
          (deleteWord ⟨[⟨"a", "cat", "h", none⟩], [], []⟩ "b").words ↔
        (⟨"a", "cat", "h", none⟩ : Word) ∈
          (⟨[⟨"a", "cat", "h", none⟩], [], []⟩ : Store).words) :=
  ⟨by decide,
    (deleteWord_spec ⟨[⟨"a", "cat", "h", none⟩], [], []⟩ "b").2.2.2.1
      ⟨"a", "cat", "h", none⟩ (by decide)⟩

/-- C9: importing an exported snapshot restores exactly the prior store, and
`importData` of any snapshot yields a store depending only on the snapshot
(the prior contents are cleared first). -/
theorem import_export_roundtrip :
    (∀ st : Store, importData (exportData st) st = st) ∧
      (∀ (d : Snapshot) (st st' : Store), importData d st = importData d st') := by
  constructor
  · intro st
    simp [importData, exportData]
  · intro d _ _
    simp [importData]

/-- C4: provided the stored `due` strings compare lexicographically the same
way their chronological timestamps (`t`) compare — which `toISOString`
output guarantees — `getDueWords` returns exactly the records due at or
before `now`. -/
theorem getDueWords_spec (store : List SRSRec) (now : String) (t : String → ℤ)
    (h : ∀ r ∈ store, (dueLe r.due now = true ↔ t r.due ≤ t now)) :
    ∀ r : SRSRec, r ∈ getDueWords store now ↔ r ∈ store ∧ t r.due ≤ t now := by
  intro r
  simp only [getDueWords, List.mem_filter]
  constructor
  · rintro ⟨hr, hle⟩
    exact ⟨hr, (h r hr).mp hle⟩
  · rintro ⟨hr, hle⟩
    exact ⟨hr, (h r hr).mpr hle⟩

/-- Witness for `getDueWords_spec` on a two-record store. -/
theorem getDueWords_spec_witness :
    (∀ r ∈ [(⟨"a", 2.5, 0, "2024-01-01T00:00:00.000Z", 0⟩ : SRSRec),
        ⟨"b", 2.5, 0, "2024-03-01T00:00:00.000Z", 0⟩],
      (dueLe r.due "2024-02-01T00:00:00.000Z" = true ↔
        (if dueLe r.due "2024-02-01T00:00:00.000Z" then (0 : ℤ) else 1) ≤
          (if dueLe "2024-02-01T00:00:00.000Z" "2024-02-01T00:00:00.000Z"
            then (0 : ℤ) else 1))) ∧
      ((⟨"a", 2.5, 0, "2024-01-01T00:00:00.000Z", 0⟩ : SRSRec) ∈
          getDueWords [⟨"a", 2.5, 0, "2024-01-01T00:00:00.000Z", 0⟩,
            ⟨"b", 2.5, 0, "2024-03-01T00:00:00.000Z", 0⟩] "2024-02-01T00:00:00.000Z" ↔
        (⟨"a", 2.5, 0, "2024-01-01T00:00:00.000Z", 0⟩ : SRSRec) ∈
            [(⟨"a", 2.5, 0, "2024-01-01T00:00:00.000Z", 0⟩ : SRSRec),
              ⟨"b", 2.5, 0, "2024-03-01T00:00:00.000Z", 0⟩] ∧
          (if dueLe "2024-01-01T00:00:00.000Z" "2024-02-01T00:00:00.000Z"
            then (0 : ℤ) else 1) ≤
            (if dueLe "2024-02-01T00:00:00.000Z" "2024-02-01T00:00:00.000Z"
              then (0 : ℤ) else 1)) :=
  ⟨by decide,
    getDueWords_spec _ "2024-02-01T00:00:00.000Z"
      (fun s => if dueLe s "2024-02-01T00:00:00.000Z" then 0 else 1) (by decide) _⟩

theorem jsDedupAux_subset (seen : List String) (l : List String) :
    ∀ x ∈ jsDedupAux seen l, x ∈ l := by
  induction l generalizing seen with
  | nil => simp [jsDedupAux]
  | cons y ys ih =>
    intro x hx
    simp only [jsDedupAux] at hx
    split at hx
    · exact List.mem_cons_of_mem _ (ih seen x hx)
    · rcases List.mem_cons.mp hx with h | h
      · exact h ▸ List.mem_cons_self _ _
      · exact List.mem_cons_of_mem _ (ih _ x h)

theorem sortedDue_perm (parse : String → ℤ) (store : List SRSRec) (now : String) :
    List.Perm (sortedDue parse store now) (getDueWords store now) :=
  List.perm_insertionSort _ _

theorem earliestIds_sub (parse : String → ℤ) (store : List SRSRec) (now : String) :
    ∀ id ∈ earliestIds parse store now,
      ∃ r ∈ getDueWords store now, r.wordId = id := by
  intro id hid
  have h1 : id ∈ (((sortedDue parse store now).filter
      (fun w => decide (w ∈ earlyPool parse store now))).take
        (min 5 (earlyPool parse store now).length)).map SRSRec.wordId :=
    jsDedupAux_subset _ _ id hid
  obtain ⟨r, hr, hrid⟩ := List.mem_map.mp h1
  have hr2 : r ∈ (sortedDue parse store now).filter
      (fun w => decide (w ∈ earlyPool parse store now)) :=
    List.take_subset _ _ hr
  have hr3 : r ∈ sortedDue parse store now := (List.mem_filter.mp hr2).1
  exact ⟨r, (sortedDue_perm parse store now).mem_iff.mp hr3, hrid⟩

theorem earliestIds_ne_nil (parse : String → ℤ) (store : List SRSRec) (now : String)
    (h : 1 < (earlyPool parse store now).length) :
    earliestIds parse store now ≠ [] := by
  have hfe : (sortedDue parse store now).filter
      (fun w => decide (w ∈ earlyPool parse store now)) = earlyPool parse store now := by
    conv_rhs => rw [earlyPool]
    apply List.filter_congr
    intro x hx
    rw [decide_eq_decide]
    simp only [earlyPool, List.mem_filter, decide_eq_true_eq]
    exact ⟨fun h' => h'.2, fun h' => ⟨hx, h'⟩⟩
  rw [earliestIds, hfe]
  have hlen : 0 < ((earlyPool parse store now).take
      (min 5 (earlyPool parse store now).length)).length := by
    rw [List.length_take]
    omega
  obtain ⟨x, xs, hx⟩ := List.exists_cons_of_ne_nil (List.length_pos.mp hlen)
  rw [hx]
  simp [jsDedup, jsDedupAux]

theorem getD_mem {l : List String} (hd : String) (h : 0 < l.length) (k : ℕ) :
    l.getD (k % l.length) hd ∈ l := by
  have hk : k % l.length < l.length := Nat.mod_lt _ h
  rw [List.getD_eq_getElem l hd hk]
  exact List.getElem_mem hk

/-- C5: `getNextWord` returns `none` exactly when nothing is due; any id it
returns is the id of some due record, whatever the random draw; and when
every due record has `reps ≥ 2` it returns the id of a due record whose due
timestamp is least among the due records. -/
theorem getNextWord_spec (parse : String → ℤ) (k : ℕ) (store : List SRSRec)
    (now : String) :
    (getNextWord parse k store now = none ↔ getDueWords store now = []) ∧
      (∀ id, getNextWord parse k store now = some id →
        ∃ r ∈ getDueWords store now, r.wordId = id) ∧
      ((∀ r ∈ getDueWords store now, 2 ≤ r.reps) →
        ∀ id, getNextWord parse k store now = some id →
          ∃ r ∈ getDueWords store now, r.wordId = id ∧
            ∀ r' ∈ getDueWords store now, parse r.due ≤ parse r'.due) := by
  have hsortne : getDueWords store now ≠ [] → sortedDue parse store now ≠ [] := by
    intro hne hnil
    apply hne
    rw [← List.length_eq_zero]
    have hl := (sortedDue_perm parse store now).length_eq
    rw [hnil] at hl
    exact hl.symm
  refine ⟨?_, ?_, ?_⟩
  · constructor
    · intro h
      by_contra hne
      have hne' : ¬ (getDueWords store now).length = 0 := by
        simpa [List.length_eq_zero] using hne
      rw [getNextWord, if_neg hne'] at h
      split at h <;> simp at h
    · intro h
      simp [getNextWord, h]
  · intro id h
    have hne : getDueWords store now ≠ [] := by
      intro hempty
      rw [getNextWord, if_pos (by simp [hempty])] at h
      simp at h
    have hne' : ¬ (getDueWords store now).length = 0 := by
      simpa [List.length_eq_zero] using hne
    rw [getNextWord, if_neg hne'] at h
    split at h
    · rename_i hlen
      have hnn := earliestIds_ne_nil parse store now hlen
      have hpos : 0 < (earliestIds parse store now).length :=
        List.length_pos.mpr hnn
      have hm := getD_mem (l := earliestIds parse store now) "" hpos k
      rw [Option.some.inj h] at hm
      exact earliestIds_sub parse store now id hm
    · obtain ⟨y, ys, hy⟩ := List.exists_cons_of_ne_nil (hsortne hne)
      have hmem : y ∈ sortedDue parse store now := by
        rw [hy]; exact List.mem_cons_self _ _
      refine ⟨y, (sortedDue_perm parse store now).mem_iff.mp hmem, ?_⟩
      have hid := Option.some.inj h
      rw [hy] at hid
      exact hid
  · intro hreps id h
    have hpool : earlyPool parse store now = [] := by
      rw [earlyPool, List.filter_eq_nil_iff]
      intro r hr
      have hr' := (sortedDue_perm parse store now).mem_iff.mp hr
      have := hreps r hr'
      simp only [decide_eq_true_eq]
      push_neg
      exact ⟨fun _ h0 => by omega, by omega⟩
    have hne : getDueWords store now ≠ [] := by
      intro hempty
      rw [getNextWord, if_pos (by simp [hempty])] at h
      simp at h
    have hne' : ¬ (getDueWords store now).length = 0 := by
      simpa [List.length_eq_zero] using hne
    have hnotlen : ¬ 1 < (earlyPool parse store now).length := by
      rw [hpool]; simp
    rw [getNextWord, if_neg hne', if_neg hnotlen] at h
    obtain ⟨y, ys, hy⟩ := List.exists_cons_of_ne_nil (hsortne hne)
    have hmem : y ∈ sortedDue parse store now := by
      rw [hy]; exact List.mem_cons_self _ _
    have hsorted : (sortedDue parse store now).Sorted (dueOrder parse) :=
      List.sorted_insertionSort _ _
    refine ⟨y, (sortedDue_perm parse store now).mem_iff.mp hmem, ?_, ?_⟩
    · have hid := Option.some.inj h
      rw [hy] at hid
      exact hid
    · intro r' hr'
      have hr'2 : r' ∈ sortedDue parse store now :=
        (sortedDue_perm parse store now).mem_iff.mpr hr'
      rw [hy] at hr'2 hsorted
      rcases List.mem_cons.mp hr'2 with rfl | htl
      · exact le_refl _
      · exact List.rel_of_sorted_cons hsorted r' htl

/-- Witness for `getNextWord_spec`'s hypothesis-bearing conjunct on a
one-record store whose record has `reps = 2`. -/
theorem getNextWord_spec_witness :
    (∀ r ∈ getDueWords [⟨"a", 2.5, 6, "2024-01-01", 2⟩] "2024-02-01", 2 ≤ r.reps) ∧
      (getNextWord (fun _ => 0) 0 [⟨"a", 2.5, 6, "2024-01-01", 2⟩] "2024-02-01" =
        some "a") ∧
      (∃ r ∈ getDueWords [⟨"a", 2.5, 6, "2024-01-01", 2⟩] "2024-02-01",
        r.wordId = "a" ∧
          ∀ r' ∈ getDueWords [⟨"a", 2.5, 6, "2024-01-01", 2⟩] "2024-02-01",
            (fun _ => (0 : ℤ)) r.due ≤ (fun _ => (0 : ℤ)) r'.due) :=
  ⟨by decide, by decide,
    (getNextWord_spec (fun _ => 0) 0 [⟨"a", 2.5, 6, "2024-01-01", 2⟩]
        "2024-02-01").2.2 (by decide) "a" (by decide)⟩

theorem find?_append_or {α : Type} (p : α → Bool) (l1 l2 : List α) :
    (l1 ++ l2).find? p = ((l1.find? p).orElse (fun _ => l2.find? p)) := by
  induction l1 with
  | nil => simp
  | cons x xs ih =>
    by_cases hx : p x
    · simp [List.find?, hx]
    · simp only [List.cons_append, List.find?]
      rw [Bool.eq_false_iff.mpr hx]
      simpa using ih

theorem wordIntervalOf_refreshed (now : String) (words : List Word)
    (srsList : List SRSRec) (wid : String) :
    wordIntervalOf (refreshedSRS now words srsList) wid =
      wordIntervalOf srsList wid := by
  rw [wordIntervalOf, wordIntervalOf, refreshedSRS, find?_append_or]
  cases h : srsList.find? (fun s => decide (s.wordId = wid)) with
  | some s => simp [Option.orElse]
  | none =>
    simp only [Option.orElse, Option.none_orElse]
    cases h2 : ((words.filter
        (fun w => ! srsList.any (fun s => decide (s.wordId = w.id)))).map
        (fun w => initializeSRS w.id now)).find? (fun s => decide (s.wordId = wid)) with
    | none => rfl
    | some s' =>
      have hmem := List.mem_of_find?_eq_some h2
      obtain ⟨w, _, hw⟩ := List.mem_map.mp hmem
      rw [← hw]
      rfl

theorem filter_key_single (store : List SRSRec) (wid : String) (s0 : SRSRec)
    (h2 : (store.map SRSRec.wordId).Nodup)
    (hf : store.find? (fun s => decide (s.wordId = wid)) = some s0) :
    store.filter (fun s => decide (s.wordId = wid)) = [s0] := by
  induction store with
  | nil => simp at hf
  | cons t ts ih =>
    rw [List.map_cons, List.nodup_cons] at h2
    by_cases ht : t.wordId = wid
    · have hf' : t = s0 := by
        rw [List.find?_cons_of_pos _ (by simpa using ht)] at hf
        exact Option.some.inj hf
      rw [List.filter_cons_of_pos (by simpa using ht), hf']
      congr 1
      rw [List.filter_eq_nil_iff]
      intro x hx
      simp only [decide_eq_true_eq]
      intro hxid
      apply h2.1
      rw [ht, ← hxid]
      exact List.mem_map_of_mem SRSRec.wordId hx
    · rw [List.find?_cons_of_neg _ (by simpa using ht)] at hf
      rw [List.filter_cons_of_neg (by simpa using ht)]
      exact ih h2.2 hf

theorem find?_filter_of_excl {α : Type} (p K : α → Bool) (l : List α)
    (h : ∀ x, p x = true → K x = false) :
    (l.filter (fun x => ! K x)).find? p = l.find? p := by
  induction l with
  | nil => rfl
  | cons t ts ih =>
    by_cases hK : K t
    · rw [List.filter_cons_of_neg (by simp [hK])]
      rw [List.find?_cons_of_neg]
      · exact ih
      · intro hp
        rw [h t hp] at hK
        exact Bool.noConfusion hK
    · rw [List.filter_cons_of_pos (by simp [Bool.eq_false_iff.mpr hK])]
      by_cases hp : p t
      · rw [List.find?_cons_of_pos _ hp, List.find?_cons_of_pos _ hp]
      · rw [List.find?_cons_of_neg _ (by simpa using hp),
          List.find?_cons_of_neg _ (by simpa using hp)]
        exact ih

theorem learned_count_eq (words : List Word) (store : List SRSRec)
    (h1 : (words.map Word.id).Nodup) (h2 : (store.map SRSRec.wordId).Nodup)
    (h3 : ∀ s ∈ store, ∃ w ∈ words, w.id = s.wordId) :
    (words.filter (fun w => decide (21 ≤ wordIntervalOf store w.id))).length =
      (store.filter (fun s => decide (21 ≤ s.interval))).length := by
  induction words generalizing store with
  | nil =>
    cases store with
    | nil => rfl
    | cons s ss =>
      obtain ⟨w, hw, _⟩ := h3 s (List.mem_cons_self _ _)
      exact absurd hw (List.not_mem_nil w)
  | cons w ws ih =>
    rw [List.map_cons, List.nodup_cons] at h1
    cases hf : store.find? (fun s => decide (s.wordId = w.id)) with
    | none =>
      have hnone : ∀ s ∈ store, s.wordId ≠ w.id := by
        intro s hs
        have := List.find?_eq_none.mp hf s hs
        simpa using this
      have hw : ¬ (21 ≤ wordIntervalOf store w.id) := by
        rw [wordIntervalOf, hf]
        norm_num
      rw [List.filter_cons_of_neg (by simpa using hw)]
      have h3' : ∀ s ∈ store, ∃ w' ∈ ws, w'.id = s.wordId := by
        intro s hs
        obtain ⟨w', hw', he⟩ := h3 s hs
        rcases List.mem_cons.mp hw' with rfl | hmem
        · exact absurd he.symm (hnone s hs)
        · exact ⟨w', hmem, he⟩
      exact ih store h1.2 h2 h3'
    | some s0 =>
      have hs0 : s0 ∈ store := List.mem_of_find?_eq_some hf
      have hs0id : s0.wordId = w.id := by
        have := List.find?_some hf
        simpa using this
      have hiv : wordIntervalOf store w.id = s0.interval := by
        rw [wordIntervalOf, hf]
      -- split the store into the record with key w.id and the rest
      set store' := store.filter (fun s => ! decide (s.wordId = w.id)) with hst'
      have hsplit : (store.filter (fun s => decide (21 ≤ s.interval))).length =
          (if 21 ≤ s0.interval then 1 else 0) +
            (store'.filter (fun s => decide (21 ≤ s.interval))).length := by
        have hperm : List.Perm
            (store.filter (fun s => decide (s.wordId = w.id)) ++ store')
            store := List.filter_append_perm _ _
        have hlen := (hperm.filter (fun s => decide (21 ≤ s.interval))).length_eq
        rw [← hlen, List.filter_append, List.length_append,
          filter_key_single store w.id s0 h2 hf]
        by_cases hq : 21 ≤ s0.interval
        · simp [hq]
        · simp [hq]
      have hws : (ws.filter
          (fun w' => decide (21 ≤ wordIntervalOf store w'.id))).length =
          (ws.filter
            (fun w' => decide (21 ≤ wordIntervalOf store' w'.id))).length := by
        congr 1
        apply List.filter_congr
        intro w' hw'
        have hne : w'.id ≠ w.id := by
          intro he
          exact h1.1 (he ▸ List.mem_map_of_mem Word.id hw')
        have : wordIntervalOf store' w'.id = wordIntervalOf store w'.id := by
          rw [wordIntervalOf, wordIntervalOf, hst',
            find?_filter_of_excl _ _ store (by
              intro x hx
              simp only [decide_eq_true_eq] at hx
              simp [hx, hne])]
        rw [this]
      have hsub : store'.Sublist store := List.filter_sublist _
      have h2' : (store'.map SRSRec.wordId).Nodup :=
        (hsub.map SRSRec.wordId).nodup h2
      have h3' : ∀ s ∈ store', ∃ w' ∈ ws, w'.id = s.wordId := by
        intro s hs
        have hsmem := hsub.mem hs
        have hsne : s.wordId ≠ w.id := by
          have := (List.mem_filter.mp hs).2
          simpa using this
        obtain ⟨w', hw', he⟩ := h3 s hsmem
        rcases List.mem_cons.mp hw' with rfl | hmem
        · exact absurd he.symm hsne
        · exact ⟨w', hmem, he⟩
      by_cases hP : 21 ≤ wordIntervalOf store w.id
      · rw [List.filter_cons_of_pos (by simpa using hP), List.length_cons, hws,
          ih store' h1.2 h2' h3', hsplit, if_pos (hiv ▸ hP)]
        simp [Nat.add_comm]
      · rw [List.filter_cons_of_neg (by simpa using hP), hws,
          ih store' h1.2 h2' h3', hsplit]
        rw [hiv] at hP
        simp [hP]

/-- C6: the learned statistic is derived, not stored: `getStudyStats`
reports as learned exactly the number of SRS records whose stored `interval`
is at least 21 (the `SRSRec` type has no learned field to read or write),
and the manage page — which counts its per-word rows with interval ≥ 21
after auto-initializing missing records — computes the same count whenever
words and SRS records correspond by id. -/
theorem learned_is_derived (store : List SRSRec) (now nowInit : String)
    (words : List Word)
    (h1 : (words.map Word.id).Nodup) (h2 : (store.map SRSRec.wordId).Nodup)
    (h3 : ∀ s ∈ store, ∃ w ∈ words, w.id = s.wordId) :
    (getStudyStats store now).learned =
        store.countP (fun s => decide (21 ≤ s.interval)) ∧
      manageLearned nowInit words store = (getStudyStats store now).learned := by
  constructor
  · rw [getStudyStats]
    exact (List.countP_eq_length_filter _ _).symm
  · rw [manageLearned, getStudyStats]
    have : ∀ w ∈ words,
        (decide (21 ≤ wordIntervalOf (refreshedSRS nowInit words store) w.id)) =
          (decide (21 ≤ wordIntervalOf store w.id)) := by
      intro w _
      rw [wordIntervalOf_refreshed]
    rw [List.filter_congr this]
    exact learned_count_eq words store h1 h2 h3

/-- Witness for `learned_is_derived` on a one-word, one-record store. -/
theorem learned_is_derived_witness :
    (([⟨"a", "cat", "h", none⟩] : List Word).map Word.id).Nodup ∧
      (([⟨"a", 2.5, 30, "2024-01-01", 3⟩] : List SRSRec).map SRSRec.wordId).Nodup ∧
      (∀ s ∈ ([⟨"a", 2.5, 30, "2024-01-01", 3⟩] : List SRSRec),
        ∃ w ∈ ([⟨"a", "cat", "h", none⟩] : List Word), w.id = s.wordId) ∧
      ((getStudyStats [⟨"a", 2.5, 30, "2024-01-01", 3⟩] "2024-02-01").learned =
          ([⟨"a", 2.5, 30, "2024-01-01", 3⟩] : List SRSRec).countP
            (fun s => decide (21 ≤ s.interval)) ∧
        manageLearned "2024-02-01" [⟨"a", "cat", "h", none⟩]
            [⟨"a", 2.5, 30, "2024-01-01", 3⟩] =
          (getStudyStats [⟨"a", 2.5, 30, "2024-01-01", 3⟩] "2024-02-01").learned) :=
  ⟨by decide, by decide, by decide,
    learned_is_derived [⟨"a", 2.5, 30, "2024-01-01", 3⟩] "2024-02-01" "2024-02-01"
      [⟨"a", "cat", "h", none⟩] (by decide) (by decide) (by decide)⟩


theorem levenshtein_nil_left (ys : List Char) : levenshtein [] ys = ys.length := by
  cases ys <;> simp [levenshtein]

theorem levenshtein_nil_right (xs : List Char) : levenshtein xs [] = xs.length := by
  cases xs <;> simp [levenshtein]

theorem levenshtein_cons_cons (x y : Char) (xs ys : List Char) :
    levenshtein (x :: xs) (y :: ys) =
      if x = y then levenshtein xs ys
      else 1 + min (levenshtein xs ys)
        (min (levenshtein (x :: xs) ys) (levenshtein xs (y :: ys))) := by
  simp [levenshtein]

theorem levenshtein_eq_zero (a : List Char) :
    ∀ b : List Char, levenshtein a b = 0 ↔ a = b := by
  induction a with
  | nil =>
    intro b
    rw [levenshtein_nil_left, List.length_eq_zero]
    exact ⟨Eq.symm, Eq.symm⟩
  | cons x xs ih =>
    intro b
    cases b with
    | nil => simp [levenshtein_nil_right]
    | cons y ys =>
      rw [levenshtein_cons_cons]
      by_cases hxy : x = y
      · rw [if_pos hxy, ih ys]
        subst hxy
        simp
      · rw [if_neg hxy]
        simp [hxy]

theorem levenshtein_len_bound :
    ∀ (n : ℕ) (a b : List Char), a.length + b.length ≤ n →
      b.length ≤ a.length + levenshtein a b ∧
        a.length ≤ b.length + levenshtein a b := by
  intro n
  induction n with
  | zero =>
    intro a b hab
    have ha : a = [] := by
      cases a with
      | nil => rfl
      | cons x xs => simp at hab
    have hb : b = [] := by
      cases b with
      | nil => rfl
      | cons x xs => rw [ha] at hab; simp at hab
    subst ha; subst hb
    simp [levenshtein_nil_left]
  | succ n ih =>
    intro a b hab
    cases a with
    | nil => rw [levenshtein_nil_left]; simp
    | cons x xs =>
      cases b with
      | nil => rw [levenshtein_nil_right]; simp
      | cons y ys =>
        rw [levenshtein_cons_cons]
        simp only [List.length_cons] at hab ⊢
        by_cases hxy : x = y
        · rw [if_pos hxy]
          have := ih xs ys (by omega)
          omega
        · rw [if_neg hxy]
          have h1 := ih xs ys (by omega)
          have h2 := ih (x :: xs) ys (by simp only [List.length_cons]; omega)
          have h3 := ih xs (y :: ys) (by simp only [List.length_cons]; omega)
          simp only [List.length_cons] at h2 h3
          omega

theorem levenshtein_one_len (a b : List Char) (h : levenshtein a b = 1) :
    Nat.dist a.length b.length ≤ 1 := by
  have := levenshtein_len_bound (a.length + b.length) a b (le_refl _)
  rw [h] at this
  rw [Nat.dist]
  omega

theorem transposed_length {a b : List Char} (h : Transposed a b) :
    a.length = b.length := by
  obtain ⟨p, x, y, s, _, rfl, rfl⟩ := h
  simp

theorem transposed_ne {a b : List Char} (h : Transposed a b) : a ≠ b := by
  obtain ⟨p, x, y, s, hxy, rfl, rfl⟩ := h
  intro he
  have h2 := List.append_cancel_left he
  rw [List.cons.injEq] at h2
  exact hxy h2.1.symm

theorem transposed_len_two {a b : List Char} (h : Transposed a b) :
    2 ≤ a.length ∧ 2 ≤ b.length := by
  obtain ⟨p, x, y, s, _, rfl, rfl⟩ := h
  simp
  omega

theorem transposed_cons (x : Char) (t t' : List Char) :
    Transposed (x :: t) (x :: t') ↔ Transposed t t' := by
  constructor
  · rintro ⟨p, c, d, s, hcd, hb, ha⟩
    cases p with
    | nil =>
      simp only [List.nil_append, List.cons.injEq] at hb ha
      exact absurd (ha.1.symm.trans hb.1) (Ne.symm hcd)
    | cons q p' =>
      simp only [List.cons_append, List.cons.injEq] at hb ha
      exact ⟨p', c, d, s, hcd, hb.2, ha.2⟩
  · rintro ⟨p, c, d, s, hcd, hb, ha⟩
    exact ⟨x :: p, c, d, s, hcd, by rw [hb]; rfl, by rw [ha]; rfl⟩

theorem transposed_cons_ne (x y u v : Char) (xs us : List Char) (hxu : x ≠ u) :
    Transposed (x :: y :: xs) (u :: v :: us) ↔ (x = v ∧ y = u ∧ xs = us) := by
  constructor
  · rintro ⟨p, c, d, s, hcd, hb, ha⟩
    cases p with
    | nil =>
      simp only [List.nil_append, List.cons.injEq] at hb ha
      exact ⟨ha.1.trans hb.2.1.symm, ha.2.1.trans hb.1.symm,
        ha.2.2.trans hb.2.2.symm⟩
    | cons q p' =>
      simp only [List.cons_append, List.cons.injEq] at hb ha
      exact absurd (ha.1.trans hb.1.symm) hxu
  · rintro ⟨h1, h2, h3⟩
    refine ⟨[], u, x, us, Ne.symm hxu, ?_, ?_⟩
    · rw [List.nil_append, h1]
    · rw [List.nil_append, h2, h3]

theorem firstMismatchSwap_iff :
    ∀ a b : List Char, firstMismatchSwap a b = true ↔ Transposed a b := by
  intro a
  induction a with
  | nil =>
    intro b
    rw [show firstMismatchSwap [] b = false from by cases b <;> rfl]
    simp only [Bool.false_eq_true, false_iff]
    intro h
    have := (transposed_len_two h).1
    simp at this
  | cons x a' ih =>
    intro b
    cases a' with
    | nil =>
      rw [show firstMismatchSwap [x] b = false from by
        cases b with
        | nil => rfl
        | cons u bs => cases bs <;> rfl]
      simp only [Bool.false_eq_true, false_iff]
      intro h
      have := (transposed_len_two h).1
      simp at this
    | cons y xs =>
      cases b with
      | nil =>
        rw [show firstMismatchSwap (x :: y :: xs) [] = false from rfl]
        simp only [Bool.false_eq_true, false_iff]
        intro h
        have := (transposed_len_two h).2
        simp at this
      | cons u bs =>
        cases bs with
        | nil =>
          rw [show firstMismatchSwap (x :: y :: xs) [u] = false from rfl]
          simp only [Bool.false_eq_true, false_iff]
          intro h
          have := (transposed_len_two h).2
          simp at this
        | cons v us =>
          by_cases hxu : x = u
          · subst hxu
            rw [show firstMismatchSwap (x :: y :: xs) (x :: v :: us) =
                firstMismatchSwap (y :: xs) (v :: us) from by
              simp [firstMismatchSwap]]
            rw [ih (v :: us), transposed_cons]
          · rw [show firstMismatchSwap (x :: y :: xs) (u :: v :: us) =
                decide (x = v ∧ y = u ∧ xs = us) from by
              simp [firstMismatchSwap, hxu]]
            rw [transposed_cons_ne x y u v xs us hxu]
            simp

theorem editLoop_one (cmp : Ordering) :
    ∀ a b : List Char, a.length = b.length →
      (editLoop cmp a b 1 = true ↔ a = b) := by
  intro a
  induction a with
  | nil =>
    intro b hlen
    cases b with
    | nil => simp [editLoop]
    | cons y ys => simp at hlen
  | cons x xs ih =>
    intro b hlen
    cases b with
    | nil => simp at hlen
    | cons y ys =>
      simp only [List.length_cons, Nat.add_right_cancel_iff] at hlen
      by_cases hxy : x = y
      · subst hxy
        rw [show editLoop cmp (x :: xs) (x :: ys) 1 = editLoop cmp xs ys 1 from by
          cases cmp <;> simp [editLoop]]
        rw [ih ys hlen]
        simp
      · rw [show editLoop cmp (x :: xs) (y :: ys) 1 = false from by
          cases cmp <;> simp [editLoop, hxy]]
        simp [hxy]

theorem editLoop_eq_iff :
    ∀ a b : List Char, a.length = b.length →
      (editLoop Ordering.eq a b 0 = true ↔ levenshtein a b = 1) := by
  intro a
  induction a with
  | nil =>
    intro b hlen
    cases b with
    | nil => simp [editLoop, levenshtein_nil_left]
    | cons y ys => simp at hlen
  | cons x xs ih =>
    intro b hlen
    cases b with
    | nil => simp at hlen
    | cons y ys =>
      simp only [List.length_cons, Nat.add_right_cancel_iff] at hlen
      by_cases hxy : x = y
      · rw [show editLoop Ordering.eq (x :: xs) (y :: ys) 0 =
            editLoop Ordering.eq xs ys 0 from by simp [editLoop, hxy]]
        rw [levenshtein_cons_cons, if_pos hxy]
        exact ih ys hlen
      · rw [show editLoop Ordering.eq (x :: xs) (y :: ys) 0 =
            editLoop Ordering.eq xs ys 1 from by simp [editLoop, hxy]]
        rw [editLoop_one Ordering.eq xs ys hlen]
        rw [levenshtein_cons_cons, if_neg hxy]
        constructor
        · intro hxs
          rw [(levenshtein_eq_zero xs ys).mpr hxs]
          simp
        · intro h
          have hmin : min (levenshtein xs ys)
              (min (levenshtein (x :: xs) ys) (levenshtein xs (y :: ys))) = 0 := by
            omega
          rw [Nat.min_eq_zero_iff, Nat.min_eq_zero_iff] at hmin
          rcases hmin with h1 | h2 | h3
          · exact (levenshtein_eq_zero xs ys).mp h1
          · have := (levenshtein_eq_zero (x :: xs) ys).mp h2
            have hl := congrArg List.length this
            simp at hl
            omega
          · have := (levenshtein_eq_zero xs (y :: ys)).mp h3
            have hl := congrArg List.length this
            simp at hl
            omega

theorem editLoop_gt_iff :
    ∀ a b : List Char, a.length = b.length + 1 →
      (editLoop Ordering.gt a b 0 = true ↔ levenshtein a b = 1) := by
  intro a
  induction a with
  | nil =>
    intro b hlen
    simp at hlen
  | cons x xs ih =>
    intro b hlen
    cases b with
    | nil =>
      simp only [List.length_cons, List.length_nil, Nat.add_right_cancel_iff] at hlen
      rw [List.length_eq_zero] at hlen
      subst hlen
      simp [editLoop, levenshtein_nil_right]
    | cons y ys =>
      simp only [List.length_cons, Nat.add_right_cancel_iff] at hlen
      by_cases hxy : x = y
      · rw [show editLoop Ordering.gt (x :: xs) (y :: ys) 0 =
            editLoop Ordering.gt xs ys 0 from by simp [editLoop, hxy]]
        rw [levenshtein_cons_cons, if_pos hxy]
        exact ih ys hlen
      · rw [show editLoop Ordering.gt (x :: xs) (y :: ys) 0 =
            editLoop Ordering.gt xs (y :: ys) 1 from by simp [editLoop, hxy]]
        rw [editLoop_one Ordering.gt xs (y :: ys) (by simp [hlen])]
        rw [levenshtein_cons_cons, if_neg hxy]
        constructor
        · intro hxs
          rw [(levenshtein_eq_zero xs (y :: ys)).mpr hxs]
          simp
        · intro h
          have hmin : min (levenshtein xs ys)
              (min (levenshtein (x :: xs) ys) (levenshtein xs (y :: ys))) = 0 := by
            omega
          rw [Nat.min_eq_zero_iff, Nat.min_eq_zero_iff] at hmin
          rcases hmin with h1 | h2 | h3
          · have := (levenshtein_eq_zero xs ys).mp h1
            have hl := congrArg List.length this
            simp at hl
            omega
          · have := (levenshtein_eq_zero (x :: xs) ys).mp h2
            have hl := congrArg List.length this
            simp at hl
            omega
          · exact (levenshtein_eq_zero xs (y :: ys)).mp h3

theorem editLoop_lt_iff :
    ∀ a b : List Char, b.length = a.length + 1 →
      (editLoop Ordering.lt a b 0 = true ↔ levenshtein a b = 1) := by
  intro a
  induction a with
  | nil =>
    intro b hlen
    cases b with
    | nil => simp at hlen
    | cons y ys =>
      simp only [List.length_cons, List.length_nil, Nat.add_right_cancel_iff] at hlen
      rw [List.length_eq_zero] at hlen
      subst hlen
      simp [editLoop, levenshtein_nil_left]
  | cons x xs ih =>
    intro b hlen
    cases b with
    | nil => simp at hlen
    | cons y ys =>
      simp only [List.length_cons, Nat.add_right_cancel_iff] at hlen
      by_cases hxy : x = y
      · rw [show editLoop Ordering.lt (x :: xs) (y :: ys) 0 =
            editLoop Ordering.lt xs ys 0 from by simp [editLoop, hxy]]
        rw [levenshtein_cons_cons, if_pos hxy]
        exact ih ys hlen
      · rw [show editLoop Ordering.lt (x :: xs) (y :: ys) 0 =
            editLoop Ordering.lt (x :: xs) ys 1 from by simp [editLoop, hxy]]
        rw [editLoop_one Ordering.lt (x :: xs) ys (by simp [hlen])]
        rw [levenshtein_cons_cons, if_neg hxy]
        constructor
        · intro hxs
          rw [(levenshtein_eq_zero (x :: xs) ys).mpr hxs]
          simp
        · intro h
          have hmin : min (levenshtein xs ys)
              (min (levenshtein (x :: xs) ys) (levenshtein xs (y :: ys))) = 0 := by
            omega
          rw [Nat.min_eq_zero_iff, Nat.min_eq_zero_iff] at hmin
          rcases hmin with h1 | h2 | h3
          · have := (levenshtein_eq_zero xs ys).mp h1
            have hl := congrArg List.length this
            simp at hl
            omega
          · exact (levenshtein_eq_zero (x :: xs) ys).mp h2
          · have := (levenshtein_eq_zero xs (y :: ys)).mp h3
            have hl := congrArg List.length this
            simp at hl
            omega

/-- The full characterization of `isSlightlyWrong`, shared by the C1 and C3
theorems: true exactly on non-empty inputs at Levenshtein distance 1 or one
adjacent transposition apart. -/
theorem isSlightlyWrong_characterization (a b : List Char) :
    isSlightlyWrong a b = true ↔
      a ≠ [] ∧ b ≠ [] ∧ (levenshtein a b = 1 ∨ Transposed a b) := by
  by_cases hemp : a = [] ∨ b = []
  · rw [isSlightlyWrong, if_pos hemp]
    simp only [Bool.false_eq_true, false_iff]
    rintro ⟨ha, hb, _⟩
    rcases hemp with h | h
    · exact ha h
    · exact hb h
  · push_neg at hemp
    obtain ⟨ha, hb⟩ := hemp
    rw [isSlightlyWrong, if_neg (by push_neg; exact ⟨ha, hb⟩)]
    by_cases hdist : 1 < Nat.dist a.length b.length
    · rw [if_pos hdist]
      simp only [Bool.false_eq_true, false_iff]
      rintro ⟨_, _, hlev | htr⟩
      · have := levenshtein_one_len a b hlev
        omega
      · have := transposed_length htr
        rw [Nat.dist] at hdist
        omega
    · rw [if_neg hdist]
      rw [Nat.dist] at hdist
      rcases Nat.lt_trichotomy a.length b.length with hlt | heq | hgt
      · have hlen : b.length = a.length + 1 := by omega
        rw [Nat.compare_eq_lt.mpr hlt]
        simp only [Bool.or_eq_true, Bool.and_eq_true, decide_eq_true_eq]
        constructor
        · rintro (⟨⟨hl, _⟩, _⟩ | hel)
          · omega
          · exact ⟨ha, hb, Or.inl ((editLoop_lt_iff a b hlen).mp hel)⟩
        · rintro ⟨_, _, hlev | htr⟩
          · exact Or.inr ((editLoop_lt_iff a b hlen).mpr hlev)
          · have := transposed_length htr
            omega
      · rw [Nat.compare_eq_eq.mpr heq]
        by_cases hab : a = b
        · subst hab
          simp only [Bool.or_eq_true, Bool.and_eq_true, decide_eq_true_eq]
          have h0 : levenshtein a a = 0 := (levenshtein_eq_zero a a).mpr rfl
          constructor
          · rintro (⟨⟨_, hne⟩, _⟩ | hel)
            · exact absurd rfl hne
            · have := (editLoop_eq_iff a a rfl).mp hel
              omega
          · rintro ⟨_, _, hlev | htr⟩
            · omega
            · exact absurd rfl (transposed_ne htr)
        · simp only [Bool.or_eq_true, Bool.and_eq_true, decide_eq_true_eq]
          constructor
          · rintro (⟨_, hf⟩ | hel)
            · exact ⟨ha, hb, Or.inr ((firstMismatchSwap_iff a b).mp hf)⟩
            · exact ⟨ha, hb, Or.inl ((editLoop_eq_iff a b heq).mp hel)⟩
          · rintro ⟨_, _, hlev | htr⟩
            · exact Or.inr ((editLoop_eq_iff a b heq).mpr hlev)
            · exact Or.inl ⟨⟨heq, hab⟩, (firstMismatchSwap_iff a b).mpr htr⟩
      · have hlen : a.length = b.length + 1 := by omega
        rw [Nat.compare_eq_gt.mpr hgt]
        simp only [Bool.or_eq_true, Bool.and_eq_true, decide_eq_true_eq]
        constructor
        · rintro (⟨⟨hl, _⟩, _⟩ | hel)
          · omega
          · exact ⟨ha, hb, Or.inl ((editLoop_gt_iff a b hlen).mp hel)⟩
        · rintro ⟨_, _, hlev | htr⟩
          · exact Or.inr ((editLoop_gt_iff a b hlen).mpr hlev)
          · have := transposed_length htr
            omega

/-- C1: `isSlightlyWrong a b` holds exactly when `a` and `b` are both
non-empty and either the Levenshtein distance between them is exactly 1, or
`a` is `b` with one adjacent pair of (distinct) characters transposed; in
particular it is false when either side is empty and when `a = b`. -/
theorem isSlightlyWrong_iff (a b : List Char) :
    isSlightlyWrong a b = true ↔
      a ≠ [] ∧ b ≠ [] ∧ (levenshtein a b = 1 ∨ Transposed a b) :=
  isSlightlyWrong_characterization a b

/-- C3: checking auto-rates NAILED exactly on a normalized exact match,
auto-rates ALMOST exactly on a non-match that is one edit or one adjacent
transposition away (both sides non-empty), presents the manual rating
buttons in every other case, and never auto-rates an empty attempt against
a non-empty target. -/
theorem handleCheck_spec (input target : List Char) :
    (handleCheck input target = CheckOutcome.autoNailed ↔
      jsLower (jsTrim input) = jsLower (jsTrim target)) ∧
      (handleCheck input target = CheckOutcome.autoAlmost ↔
        (jsLower (jsTrim input) ≠ jsLower (jsTrim target) ∧
          jsLower (jsTrim input) ≠ [] ∧ jsLower (jsTrim target) ≠ [] ∧
          (levenshtein (jsLower (jsTrim input)) (jsLower (jsTrim target)) = 1 ∨
            Transposed (jsLower (jsTrim input)) (jsLower (jsTrim target))))) ∧
      (jsLower (jsTrim input) = [] → jsLower (jsTrim target) ≠ [] →
        handleCheck input target = CheckOutcome.manual) := by
  set a := jsLower (jsTrim input) with ha
  set t := jsLower (jsTrim target) with ht
  refine ⟨?_, ?_, ?_⟩
  · by_cases heq : a = t
    · simp [handleCheck, ← ha, ← ht, heq]
    · simp only [handleCheck, ← ha, ← ht, if_neg heq]
      split <;> simp [heq]
  · by_cases heq : a = t
    · simp [handleCheck, ← ha, ← ht, heq]
    · rw [show handleCheck input target =
          (if isSlightlyWrong a t then CheckOutcome.autoAlmost
            else CheckOutcome.manual) from by
        simp [handleCheck, ← ha, ← ht, heq]]
      by_cases hsw : isSlightlyWrong a t = true
      · rw [if_pos hsw]
        have hr := (isSlightlyWrong_characterization a t).mp hsw
        simp only [true_iff]
        exact ⟨heq, hr.1, hr.2.1, hr.2.2⟩
      · rw [if_neg hsw]
        simp only [Bool.not_eq_true] at hsw
        constructor
        · intro hcontra
          exact absurd hcontra (by simp)
        · rintro ⟨_, h1, h2, h3⟩
          have := (isSlightlyWrong_characterization a t).mpr ⟨h1, h2, h3⟩
          rw [this] at hsw
          exact absurd hsw (by simp)
  · intro hae htne
    have hne : a ≠ t := fun h => htne (h ▸ hae)
    have hsw : isSlightlyWrong a t = false := by
      rw [← Bool.not_eq_true]
      intro hcontra
      exact ((isSlightlyWrong_characterization a t).mp hcontra).1 hae
    simp [handleCheck, ← ha, ← ht, hne, hsw]

/-- Witness for `handleCheck_spec`: a whitespace-only attempt against the
target "cat" is not auto-rated. -/
theorem handleCheck_spec_witness :
    jsLower (jsTrim [' ']) = [] ∧ jsLower (jsTrim ['c', 'a', 't']) ≠ [] ∧
      handleCheck [' '] ['c', 'a', 't'] = CheckOutcome.manual :=
  ⟨by decide, by decide,
    (handleCheck_spec [' '] ['c', 'a', 't']).2.2 (by decide) (by decide)⟩


theorem filterNovel_mem (existingSet : List String) :
    ∀ (l : List RawWord) (seen : List String) (w : RawWord),
      w ∈ filterNovel existingSet l seen →
        w.text ∉ existingSet ∧ w.text ∉ seen := by
  intro l
  induction l with
  | nil => intro seen w hw; simp [filterNovel] at hw
  | cons w' ws ih =>
    intro seen w hw
    rw [filterNovel] at hw
    split at hw
    · exact ih seen w hw
    · rename_i hcond
      push_neg at hcond
      rcases List.mem_cons.mp hw with rfl | hmem
      · exact hcond
      · have := ih _ w hmem
        exact ⟨this.1, fun hs => this.2 (List.mem_cons_of_mem _ hs)⟩

theorem filterNovel_nodup (existingSet : List String) :
    ∀ (l : List RawWord) (seen : List String),
      ((filterNovel existingSet l seen).map RawWord.text).Nodup := by
  intro l
  induction l with
  | nil => intro seen; simp [filterNovel]
  | cons w' ws ih =>
    intro seen
    rw [filterNovel]
    split
    · exact ih seen
    · rw [List.map_cons, List.nodup_cons]
      refine ⟨?_, ih _⟩
      intro hmem
      obtain ⟨w, hw, hwt⟩ := List.mem_map.mp hmem
      have := (filterNovel_mem existingSet ws _ w hw).2
      exact this (hwt ▸ List.mem_cons_self _ _)

/-- C8 counterexample: with no existing words (`existingWordCount = 0`) and
an AI reply of eleven valid novel words, the route's defensive clip is only
`remainingSlots = 100`, so the success response carries 11 > min 10 100
words, refuting the claimed `min(10, 100 − existing total)` bound. -/
theorem generatePOST_exceeds_ten :
    generatePOST false true ⟨"animals", [], some 0⟩ (some elevenWords)
        (fun _ h => h) =
      GenResponse.success (elevenWords.map (fun w => (w.text, w.hint))) ∧
      (elevenWords.map (fun w => (w.text, w.hint))).length = 11 ∧
      ¬ ((11 : ℤ) ≤ min 10 (100 - existingTotal ⟨"animals", [], some 0⟩)) := by
  refine ⟨?_, by decide, by decide⟩
  decide

/-- C8 (amended): for a POST that passes the rate limiter, carries a prompt
template, and has an API key configured: when the reported existing total is
at least 100 the route answers WORD_LIMIT with status 429; otherwise every
success response holds at most `100 − existingTotal` words (the prompt asks
the model for only `min 10 (100 − existingTotal)`, but the response is
clipped to `100 − existingTotal`), whose texts are pairwise distinct and
disjoint from the normalized client-supplied existing list. -/
theorem generatePOST_spec (body : GenBody) (ai : Option (List RawWord))
    (san : String → String → String) (hp : body.promptTemplate ≠ "") :
    (100 ≤ existingTotal body →
      generatePOST false true body ai san = GenResponse.wordLimit 100) ∧
      (∀ ws, generatePOST false true body ai san = GenResponse.success ws →
        (ws.length : ℤ) ≤ 100 - existingTotal body ∧
          (ws.map Prod.fst).Nodup ∧
          ∀ t ∈ ws.map Prod.fst, t ∉ normalizeExisting body.existingWords) := by
  constructor
  · intro h100
    rw [generatePOST, if_neg (by simp), if_neg hp, if_neg (by simp), if_pos h100]
  · intro ws hws
    rw [generatePOST, if_neg (by simp), if_neg hp, if_neg (by simp)] at hws
    by_cases h100 : 100 ≤ existingTotal body
    · rw [if_pos h100] at hws
      exact absurd hws (by simp)
    · rw [if_neg h100] at hws
      cases ai with
      | none => exact absurd hws (by simp)
      | some l =>
        simp only at hws
        by_cases hv : validWords (normalizeExisting body.existingWords) l = []
        · rw [if_pos hv] at hws
          exact absurd hws (by simp)
        · rw [if_neg hv] at hws
          injection hws with hws'
          subst hws'
          set valid := validWords (normalizeExisting body.existingWords) l with hvd
          set n := (100 - existingTotal body).toNat with hn
          have hmapeq : ((valid.take n).map
              (fun w => (w.text, san w.text w.hint))).map Prod.fst =
              (valid.take n).map RawWord.text := by
            rw [List.map_map]
            rfl
          have hnodup : ((validWords (normalizeExisting body.existingWords) l).map
              RawWord.text).Nodup :=
            filterNovel_nodup (normalizeExisting body.existingWords) _ []
          refine ⟨?_, ?_, ?_⟩
          · rw [List.length_map, List.length_take]
            have h2 : ((n : ℕ) : ℤ) = 100 - existingTotal body := by
              rw [hn]
              exact Int.toNat_of_nonneg (by omega)
            have h1 : ((min n valid.length : ℕ) : ℤ) ≤ ((n : ℕ) : ℤ) := by
              exact_mod_cast Nat.min_le_left _ _
            rw [h2] at h1
            exact h1
          · rw [hmapeq]
            exact ((List.take_sublist _ _).map RawWord.text).nodup (hvd ▸ hnodup)
          · intro t ht
            rw [hmapeq] at ht
            obtain ⟨w, hw, rfl⟩ := List.mem_map.mp ht
            have hwv : w ∈ validWords (normalizeExisting body.existingWords) l := by
              rw [← hvd]
              exact List.take_subset _ _ hw
            exact (filterNovel_mem (normalizeExisting body.existingWords) _ [] w hwv).1

/-- Witness for `generatePOST_spec`: a well-formed request with existing
total 0 and a two-word AI reply. -/
theorem generatePOST_spec_witness :
    ("animals" : String) ≠ "" ∧
      ((100 : ℤ) ≤ existingTotal ⟨"animals", [], some 100⟩ →
        generatePOST false true ⟨"animals", [], some 100⟩
            (some [⟨"apple", "h"⟩]) (fun _ h => h) = GenResponse.wordLimit 100) :=
  ⟨by decide,
    (generatePOST_spec ⟨"animals", [], some 100⟩ (some [⟨"apple", "h"⟩])
      (fun _ h => h) (by decide)).1⟩

end BeSpelling
